import Mathlib

/-!
Verification of the `imessage` Go package (files `incoming.go`, `outgoing.go`)
against its natural-language specification.  The Go code is shallowly embedded:
pure control flow becomes Lean functions, external effects (command runs,
sleeps, channel sends, log lines) become explicit traces or counters, and the
SQLite data source becomes a list of rows.
-/

namespace IMessage

/-! ## Outgoing side: `RunAppleScript` (outgoing.go, lines 37-60)

The Go loop is

```
for i := 1; i <= retry; i++ {
    if err := cmd.Run(); err == nil { break }
    else if i >= retry { errs = append(errs, wrap(err)); return }
    else { errs = append(errs, err) }
    time.Sleep(750 * time.Millisecond)
}
return nil
```

The external command is modelled by an oracle `ok : Int → Bool` giving the
outcome of attempt `i`.  The result records the accumulated error list (as the
attempt indices whose error was appended), the number of `cmd.Run` invocations
and the number of 750 ms sleeps that were executed.  The loop counter `i` and
the `retry` bound stay `Int` as in Go; `fuel` only bounds the recursion and is
chosen so that running out of fuel coincides exactly with the loop-condition
exit `i > retry` (fuel = retry.toNat, i starts at 1).
-/

structure ScriptResult where
  errs : List Int
  attempts : Nat
  sleeps : Nat
  deriving Repr, DecidableEq

/-- One pass of the retry loop of `RunAppleScript`.  Ending with `fuel = 0`
models the `for` condition `i <= retry` failing, after which the function
executes `return nil` (errors accumulated so far are discarded). -/
def runLoop (ok : Int → Bool) (retry : Int) : Nat → Int → List Int → Nat → Nat → ScriptResult
  | 0, _, _, a, s => ⟨[], a, s⟩
  | fuel + 1, i, acc, a, s =>
    if ok i then ⟨[], a + 1, s⟩
    else if retry ≤ i then ⟨acc ++ [i], a + 1, s⟩
    else runLoop ok retry fuel (i + 1) (acc ++ [i]) (a + 1) (s + 1)

/-- Model of `RunAppleScript` with command outcomes `ok` and bound `retry`:
`errs = []` iff the Go function returns `nil`. -/
def RunAppleScript (ok : Int → Bool) (retry : Int) : ScriptResult :=
  runLoop ok retry retry.toNat 1 [] 0 0

/-! ### Retry-loop lemmas -/

/-- If every attempt from `i` up to `retry` fails, the loop (entered with the
invariant `fuel + i = retry + 1` and at least one round left) accumulates one
error per remaining attempt and sleeps between consecutive attempts only. -/
theorem runLoop_all_fail (ok : Int → Bool) (retry : Int) :
    ∀ fuel : Nat, ∀ i : Int, ∀ acc : List Int, ∀ a s : Nat,
      (fuel : Int) + i = retry + 1 → 1 ≤ fuel →
      (∀ j : Int, i ≤ j → j ≤ retry → ok j = false) →
      runLoop ok retry fuel i acc a s =
        ⟨acc ++ (List.range fuel).map (fun t : Nat => i + (t : Int)), a + fuel, s + (fuel - 1)⟩ := by
  intro fuel
  induction fuel with
  | zero => intro i acc a s _ h2 _; omega
  | succ f ih =>
    intro i acc a s h1 _ hfail
    rw [runLoop]
    rw [hfail i le_rfl (by push_cast at h1; omega)]
    simp only [Bool.false_eq_true, if_false]
    by_cases hf : f = 0
    · subst hf
      have hle : retry ≤ i := by push_cast at h1; omega
      rw [if_pos hle]
      simp [List.range_succ]
    · have hlt : ¬ retry ≤ i := by push_cast at h1 ⊢; omega
      rw [if_neg hlt]
      rw [ih (i + 1) (acc ++ [i]) (a + 1) (s + 1) (by push_cast at h1 ⊢; omega)
        (by omega) (fun j hj hj' => hfail j (by omega) hj')]
      simp only [ScriptResult.mk.injEq]
      refine ⟨?_, by omega, by omega⟩
      rw [List.append_assoc]
      refine congrArg (acc ++ ·) ?_
      rw [List.range_succ_eq_map]
      simp only [List.map_cons, List.map_map, List.singleton_append]
      refine congrArg₂ List.cons (by simp) ?_
      refine List.map_congr_left ?_
      intro t _
      simp only [Function.comp_apply]
      push_cast
      ring

/-- If attempt `k` (with `i ≤ k ≤ retry`) succeeds and all attempts in
`[i, k)` fail, the loop stops at attempt `k` with no errors, having slept
once before each of the `k - i` retries it performed. -/
theorem runLoop_first_success (ok : Int → Bool) (retry : Int) :
    ∀ fuel : Nat, ∀ i : Int, ∀ acc : List Int, ∀ a s : Nat, ∀ k : Int,
      (fuel : Int) + i = retry + 1 →
      i ≤ k → k ≤ retry → ok k = true →
      (∀ j : Int, i ≤ j → j < k → ok j = false) →
      runLoop ok retry fuel i acc a s = ⟨[], a + (k - i).toNat + 1, s + (k - i).toNat⟩ := by
  intro fuel
  induction fuel with
  | zero => intro i acc a s k h1 h2 h3 _ _; omega
  | succ f ih =>
    intro i acc a s k h1 h2 h3 hk hfail
    rw [runLoop]
    by_cases hik : i = k
    · subst hik
      rw [hk]
      simp only [if_true]
      simp only [ScriptResult.mk.injEq]
      refine ⟨by simp, by omega, by omega⟩
    · have hiklt : i < k := lt_of_le_of_ne h2 hik
      rw [hfail i le_rfl hiklt]
      simp only [Bool.false_eq_true, if_false]
      have hlt : ¬ retry ≤ i := by omega
      rw [if_neg hlt]
      rw [ih (i + 1) (acc ++ [i]) (a + 1) (s + 1) k (by push_cast at h1 ⊢; omega)
        (by omega) h3 hk (fun j hj hj' => hfail j (by omega) hj')]
      simp only [ScriptResult.mk.injEq]
      refine ⟨by simp, by omega, by omega⟩

/-! ## C2 and C10: `RunAppleScript` retry policy -/

/-- C2: with retry bound `N ≥ 1`: (a) if the first successful attempt is
`k ≤ N`, the call returns no errors, makes exactly `k` attempts and sleeps
`k - 1` times (one 750 ms delay before each retry); (b) if every attempt
fails, the call returns exactly `N` accumulated errors (one per attempt, in
order), makes exactly `N` attempts and sleeps `N - 1` times (no delay after
the final failure). -/
theorem RunAppleScript_retry_policy (ok : Int → Bool) (N : Int) (hN : 1 ≤ N) :
    (∀ k : Int, 1 ≤ k → k ≤ N → ok k = true →
      (∀ j : Int, 1 ≤ j → j < k → ok j = false) →
      RunAppleScript ok N = ⟨[], (k - 1).toNat + 1, (k - 1).toNat⟩) ∧
    ((∀ j : Int, 1 ≤ j → j ≤ N → ok j = false) →
      (RunAppleScript ok N).errs = (List.range N.toNat).map (fun t : Nat => 1 + (t : Int)) ∧
      (RunAppleScript ok N).errs.length = N.toNat ∧
      (RunAppleScript ok N).attempts = N.toNat ∧
      (RunAppleScript ok N).sleeps = N.toNat - 1) := by
  constructor
  · intro k hk1 hkN hok hfail
    unfold RunAppleScript
    rw [runLoop_first_success ok N N.toNat 1 [] 0 0 k (by omega) hk1 hkN hok
      (fun j hj hj' => hfail j hj hj')]
    simp only [ScriptResult.mk.injEq]
    refine ⟨by simp, by omega, by omega⟩
  · intro hfail
    unfold RunAppleScript
    rw [runLoop_all_fail ok N N.toNat 1 [] 0 0 (by omega) (by omega)
      (fun j hj hj' => hfail j hj hj')]
    simp

/-- Witness for C2 at `N = 3` with a command that fails twice then succeeds
(empty error set, two delay intervals), and at `N = 2` with an always-failing
command (exactly two error entries, one delay). -/
theorem RunAppleScript_retry_policy_witness :
    RunAppleScript (fun i => 3 ≤ i) 3 = ⟨[], 3, 2⟩ ∧
    (RunAppleScript (fun _ => false) 2).errs.length = 2 ∧
    (RunAppleScript (fun _ => false) 2).sleeps = 1 := by
  refine ⟨?_, ?_, ?_⟩
  · have h := (RunAppleScript_retry_policy (fun i => decide (3 ≤ i)) 3 (by decide)).1
      3 (by decide) (by decide) (by decide) (fun j h1 h2 => by simp; omega)
    simpa using h
  · have h := ((RunAppleScript_retry_policy (fun _ => false) 2 (by decide)).2
      (fun j _ _ => rfl)).2.1
    simpa using h
  · have h := ((RunAppleScript_retry_policy (fun _ => false) 2 (by decide)).2
      (fun j _ _ => rfl)).2.2.2
    simpa using h

/-- C10: a non-positive retry bound makes `RunAppleScript` return immediately
with no errors, zero command invocations and zero sleeps: it reports success
without ever attempting the command. -/
theorem RunAppleScript_nonpositive_retry (ok : Int → Bool) (retry : Int)
    (h : retry ≤ 0) : RunAppleScript ok retry = ⟨[], 0, 0⟩ := by
  unfold RunAppleScript
  have : retry.toNat = 0 := by omega
  rw [this]
  rfl

/-- Witness for C10 at `retry = 0` and `retry = -1`. -/
theorem RunAppleScript_nonpositive_retry_witness :
    RunAppleScript (fun _ => false) 0 = ⟨[], 0, 0⟩ ∧
    RunAppleScript (fun _ => true) (-1) = ⟨[], 0, 0⟩ :=
  ⟨RunAppleScript_nonpositive_retry _ 0 (by decide),
   RunAppleScript_nonpositive_retry _ (-1) (by decide)⟩

/-! ## Incoming side: subscription registry (incoming.go, lines 28-92)

`funcBinding` and `chanBinding` pair a regex pattern string with a sink; the
sink itself (a Go function pointer or channel) is opaque and is represented by
a `Nat` tag, enough to tell bindings apart. -/

structure FuncBinding where
  Match : String
  Func : Nat
  deriving Repr, DecidableEq

structure ChanBinding where
  Match : String
  Chan : Nat
  deriving Repr, DecidableEq

/-- The removal loop shared by `RemoveChan` and `RemoveCall`:

```
removed := 0
for i, rlen := 0, len(xs); i < rlen; i++ {
    j := i - removed
    if xs[j].Match == match { xs = append(xs[:j], xs[j+1:]...); removed++ }
}
return removed
```

`steps` counts the remaining loop iterations (`rlen - i`); `i` and `removed`
are carried explicitly, and `xs[j]`/the in-place deletion become `List.get?`
and `List.eraseIdx`.  Returns `(removed, xs)`. -/
def removeLoop (key : α → String) (mtch : String) :
    Nat → Nat → Nat → List α → Nat × List α
  | 0, _, removed, xs => (removed, xs)
  | steps + 1, i, removed, xs =>
    let j := i - removed
    match xs.get? j with
    | some b =>
      if key b = mtch then removeLoop key mtch steps (i + 1) (removed + 1) (xs.eraseIdx j)
      else removeLoop key mtch steps (i + 1) removed xs
    | none => removeLoop key mtch steps (i + 1) removed xs

/-- Model of `RemoveChan` (incoming.go, lines 65-77): returns the removal count and the
surviving collection. -/
def RemoveChan (mtch : String) (chans : List ChanBinding) : Nat × List ChanBinding :=
  removeLoop ChanBinding.Match mtch chans.length 0 0 chans

/-- Model of `RemoveCall` (incoming.go, lines 80-92). -/
def RemoveCall (mtch : String) (funcs : List FuncBinding) : Nat × List FuncBinding :=
  removeLoop FuncBinding.Match mtch funcs.length 0 0 funcs

/-- Indexing just past a prefix reads the head of the suffix. -/
theorem get?_append_length (b : α) : ∀ (done rest : List α),
    (done ++ b :: rest).get? done.length = some b := by
  intro done
  induction done with
  | nil => intro rest; rfl
  | cons d ds ih => intro rest; simpa using ih rest

/-- Deleting at the index just past a prefix drops the head of the suffix. -/
theorem eraseIdx_append_length (b : α) : ∀ (done rest : List α),
    (done ++ b :: rest).eraseIdx done.length = done ++ rest := by
  intro done
  induction done with
  | nil => intro rest; rfl
  | cons d ds ih => intro rest; simpa [List.eraseIdx] using ih rest

/-- Invariant of the removal loop: when entered having processed `done`
surviving elements (so `i = done.length + removed`), with `rest` the elements
not yet examined, it removes exactly the `rest` elements whose key equals the
pattern and keeps the rest in order. -/
theorem removeLoop_spec (key : α → String) (mtch : String) :
    ∀ rest done : List α, ∀ removed : Nat,
      removeLoop key mtch rest.length (done.length + removed) removed (done ++ rest) =
        (removed + rest.countP (fun b => key b = mtch),
         done ++ rest.filter (fun b => ¬ key b = mtch)) := by
  intro rest
  induction rest with
  | nil =>
    intro done removed
    simp [removeLoop]
  | cons b rest ih =>
    intro done removed
    rw [List.length_cons, removeLoop]
    have hj : (done.length + removed) - removed = done.length := by omega
    rw [hj]
    rw [get?_append_length]
    dsimp only
    by_cases hb : key b = mtch
    · rw [if_pos hb]
      rw [eraseIdx_append_length]
      have harg : done.length + removed + 1 = done.length + (removed + 1) := by omega
      rw [harg, ih done (removed + 1)]
      simp [hb, List.countP_cons, List.filter_cons]
      omega
    · rw [if_neg hb]
      have harg : done.length + removed + 1 = (done ++ [b]).length + removed := by
        simp; omega
      rw [harg]
      have hassoc : done ++ b :: rest = (done ++ [b]) ++ rest := by simp
      rw [hassoc, ih (done ++ [b]) removed]
      simp [List.countP_cons, List.filter_cons, hb]

/-! ## C3: pattern-targeted removal -/

/-- C3: `RemoveCall` and `RemoveChan` remove exactly the bindings whose
pattern is string-equal to the argument, return the number removed, and keep
the surviving bindings in their original relative order (the survivors are
the order-preserving `filter` of the collection). -/
theorem Remove_exact_pattern (mtch : String) (funcs : List FuncBinding)
    (chans : List ChanBinding) :
    RemoveCall mtch funcs =
      (funcs.countP (fun b => b.Match = mtch),
       funcs.filter (fun b => ¬ b.Match = mtch)) ∧
    RemoveChan mtch chans =
      (chans.countP (fun b => b.Match = mtch),
       chans.filter (fun b => ¬ b.Match = mtch)) := by
  constructor
  · have h := removeLoop_spec FuncBinding.Match mtch funcs [] 0
    simpa [RemoveCall] using h
  · have h := removeLoop_spec ChanBinding.Match mtch chans [] 0
    simpa [RemoveChan] using h

/-- Witness for C3 on a collection where pattern `"foo"` occurs in
non-contiguous positions (`foo, bar, foo, foo`): exactly 3 removed and the
`"bar"` binding survives in place. -/
theorem Remove_exact_pattern_witness :
    RemoveCall "foo" [⟨"foo", 1⟩, ⟨"bar", 2⟩, ⟨"foo", 3⟩, ⟨"foo", 4⟩] =
      (3, [⟨"bar", 2⟩]) ∧
    RemoveChan "foo" [⟨"foo", 1⟩, ⟨"bar", 2⟩, ⟨"foo", 3⟩] = (2, [⟨"bar", 2⟩]) := by
  have h := Remove_exact_pattern "foo"
    [⟨"foo", 1⟩, ⟨"bar", 2⟩, ⟨"foo", 3⟩, ⟨"foo", 4⟩]
    [⟨"foo", 1⟩, ⟨"bar", 2⟩, ⟨"foo", 3⟩]
  refine ⟨?_, ?_⟩
  · rw [h.1]; decide
  · rw [h.2]; decide

/-! ## Incoming events and dispatch (incoming.go, lines 14-21, 95-105, 215-237)

`regexp.MatchString(pattern, text)` is external; it is modelled by an oracle
`RegexMatch : String → String → Option Bool`, where `none` models a malformed
pattern (compile error, in which Go returns `matched = false` and a non-nil
error) and `some b` a successful match test.  Dispatch is recorded as a trace
of observable actions: spawning a callback goroutine, a blocking channel send,
or the log line `checkErr` emits for a bad pattern. -/

structure Incoming where
  RowID : Int
  From : String
  Text : String
  File : Bool
  deriving Repr, DecidableEq

abbrev RegexMatch := String → String → Option Bool

inductive DispatchAction where
  | callFunc (pattern : String) (fn : Nat)
  | chanSend (pattern : String) (ch : Nat)
  | logBadPattern (pattern : String)
  deriving Repr, DecidableEq

/-- Model of `callBacks` (incoming.go, lines 215-225): for each func binding in order,
test the pattern against the message text; a pattern error is logged by
`checkErr` (and `matched` is false); on a clean match the callback is spawned
with `go`. -/
def callBacks (rx : RegexMatch) (funcs : List FuncBinding) (msg : Incoming) :
    List DispatchAction :=
  match funcs with
  | [] => []
  | bind :: rest =>
    match rx bind.Match msg.Text with
    | none => .logBadPattern bind.Match :: callBacks rx rest msg
    | some true => .callFunc bind.Match bind.Func :: callBacks rx rest msg
    | some false => callBacks rx rest msg

/-- Model of `mesgChans` (incoming.go, lines 227-237): same evaluation over the chan
bindings, delivering by a blocking channel send. -/
def mesgChans (rx : RegexMatch) (chans : List ChanBinding) (msg : Incoming) :
    List DispatchAction :=
  match chans with
  | [] => []
  | bind :: rest =>
    match rx bind.Match msg.Text with
    | none => .logBadPattern bind.Match :: mesgChans rx rest msg
    | some true => .chanSend bind.Match bind.Chan :: mesgChans rx rest msg
    | some false => mesgChans rx rest msg

/-- The per-event consumer loop body of `processIncomingMessages`
(incoming.go, lines 99-101): `m.callBacks(msg)` then `m.mesgChans(msg)`. -/
def dispatch (rx : RegexMatch) (funcs : List FuncBinding) (chans : List ChanBinding)
    (msg : Incoming) : List DispatchAction :=
  callBacks rx funcs msg ++ mesgChans rx chans msg

/-- The trace of `callBacks` never contains a channel send. -/
theorem callBacks_no_chanSend (rx : RegexMatch) (funcs : List FuncBinding)
    (msg : Incoming) : ∀ p c, .chanSend p c ∉ callBacks rx funcs msg := by
  intro p c
  induction funcs with
  | nil => simp [callBacks]
  | cons bind rest ih =>
    rw [callBacks]
    cases rx bind.Match msg.Text with
    | none => simpa using ih
    | some b => cases b with
      | true => simpa using ih
      | false => simpa using ih

/-- The trace of `mesgChans` never contains a callback spawn. -/
theorem mesgChans_no_callFunc (rx : RegexMatch) (chans : List ChanBinding)
    (msg : Incoming) : ∀ p f, .callFunc p f ∉ mesgChans rx chans msg := by
  intro p f
  induction chans with
  | nil => simp [mesgChans]
  | cons bind rest ih =>
    rw [mesgChans]
    cases rx bind.Match msg.Text with
    | none => simpa using ih
    | some b => cases b with
      | true => simpa using ih
      | false => simpa using ih

/-- The callback spawns of `callBacks` are exactly the matching func bindings
in insertion order. -/
theorem callBacks_order (rx : RegexMatch) (msg : Incoming) :
    ∀ funcs : List FuncBinding,
      (callBacks rx funcs msg).filterMap
          (fun a => match a with
            | .callFunc p f => some (p, f)
            | _ => none) =
        funcs.filterMap
          (fun b => if rx b.Match msg.Text = some true then some (b.Match, b.Func) else none) := by
  intro funcs
  induction funcs with
  | nil => simp [callBacks]
  | cons bind rest ih =>
    rw [callBacks]
    cases h : rx bind.Match msg.Text with
    | none => simp [List.filterMap_cons, h, ih]
    | some b => cases b with
      | true => simp [List.filterMap_cons, h, ih]
      | false => simp [List.filterMap_cons, h, ih]

/-- The channel sends of `mesgChans` are exactly the matching chan bindings
in insertion order. -/
theorem mesgChans_order (rx : RegexMatch) (msg : Incoming) :
    ∀ chans : List ChanBinding,
      (mesgChans rx chans msg).filterMap
          (fun a => match a with
            | .chanSend p c => some (p, c)
            | _ => none) =
        chans.filterMap
          (fun b => if rx b.Match msg.Text = some true then some (b.Match, b.Chan) else none) := by
  intro chans
  induction chans with
  | nil => simp [mesgChans]
  | cons bind rest ih =>
    rw [mesgChans]
    cases h : rx bind.Match msg.Text with
    | none => simp [List.filterMap_cons, h, ih]
    | some b => cases b with
      | true => simp [List.filterMap_cons, h, ih]
      | false => simp [List.filterMap_cons, h, ih]

/-! ## C6: handler phase strictly precedes channel phase, each in order -/

/-- C6: in the dispatch trace of one event, every callback spawn occurs at a
strictly earlier position than every channel send, and within each collection
the activations follow insertion order (they are exactly the matching bindings,
as an order-preserving `filterMap`). -/
theorem dispatch_funcs_before_chans (rx : RegexMatch) (funcs : List FuncBinding)
    (chans : List ChanBinding) (msg : Incoming) :
    (∀ i j : Nat, ∀ p q : String, ∀ f c : Nat,
      (dispatch rx funcs chans msg).get? i = some (.callFunc p f) →
      (dispatch rx funcs chans msg).get? j = some (.chanSend q c) →
      i < j) ∧
    ((dispatch rx funcs chans msg).filterMap
        (fun a => match a with
          | .callFunc p f => some (p, f)
          | _ => none) =
      funcs.filterMap
        (fun b => if rx b.Match msg.Text = some true then some (b.Match, b.Func) else none)) ∧
    ((dispatch rx funcs chans msg).filterMap
        (fun a => match a with
          | .chanSend p c => some (p, c)
          | _ => none) =
      chans.filterMap
        (fun b => if rx b.Match msg.Text = some true then some (b.Match, b.Chan) else none)) := by
  refine ⟨?_, ?_, ?_⟩
  · intro i j p q f c hi hj
    unfold dispatch at hi hj
    set L := callBacks rx funcs msg with hL
    by_contra hij
    have hji : j ≤ i := by omega
    have hjL : j < L.length := by
      by_contra hjge
      have hjge' : L.length ≤ j := by omega
      rw [List.get?_append_right hjge'] at hj
      exact mesgChans_no_callFunc rx chans msg p f
        (by
          have hiL : L.length ≤ i := le_trans hjge' hji
          rw [List.get?_append_right hiL] at hi
          exact List.get?_mem hi)
    rw [List.get?_append hjL] at hj
    exact callBacks_no_chanSend rx funcs msg q c (List.get?_mem hj)
  · unfold dispatch
    rw [List.filterMap_append]
    rw [callBacks_order]
    have h2 : (mesgChans rx chans msg).filterMap
        (fun a => match a with
          | .callFunc p f => some (p, f)
          | _ => none) = [] := by
      rw [List.filterMap_eq_nil]
      intro a ha
      cases a with
      | callFunc p f => exact absurd ha (mesgChans_no_callFunc rx chans msg p f)
      | chanSend p c => rfl
      | logBadPattern p => rfl
    rw [h2, List.append_nil]
  · unfold dispatch
    rw [List.filterMap_append]
    rw [mesgChans_order]
    have h1 : (callBacks rx funcs msg).filterMap
        (fun a => match a with
          | .chanSend p c => some (p, c)
          | _ => none) = [] := by
      rw [List.filterMap_eq_nil]
      intro a ha
      cases a with
      | callFunc p f => rfl
      | chanSend p c => exact absurd ha (callBacks_no_chanSend rx funcs msg p c)
      | logBadPattern p => rfl
    rw [h1, List.nil_append]

/-- Witness for C6 on a concrete registry with one matching handler binding
and one matching channel binding: the callback spawn sits at position 0, the
channel send at position 1, and the theorem yields 0 < 1. -/
theorem dispatch_funcs_before_chans_witness :
    (dispatch (fun _ _ => some true) [⟨".*", 1⟩] [⟨".*", 2⟩] ⟨7, "a", "x", false⟩).get? 0 =
      some (.callFunc ".*" 1) ∧
    (dispatch (fun _ _ => some true) [⟨".*", 1⟩] [⟨".*", 2⟩] ⟨7, "a", "x", false⟩).get? 1 =
      some (.chanSend ".*" 2) ∧
    (0 : Nat) < 1 := by
  refine ⟨by decide, by decide, ?_⟩
  exact (dispatch_funcs_before_chans (fun _ _ => some true) [⟨".*", 1⟩] [⟨".*", 2⟩]
    ⟨7, "a", "x", false⟩).1 0 1 ".*" ".*" 1 2 (by decide) (by decide)

/-! ## C7: malformed patterns are logged, non-matching, non-aborting -/

/-- C7: a binding whose pattern the regex engine rejects contributes exactly
one log action to the trace (its sink is never activated), and dispatch of
every other binding is unaffected: the trace splits around the log entry into
the traces of the bindings before and after it. -/
theorem dispatch_malformed_pattern (rx : RegexMatch) (msg : Incoming)
    (b : FuncBinding) (b' : ChanBinding)
    (funcs₁ funcs₂ : List FuncBinding) (chans₁ chans₂ : List ChanBinding)
    (hb : rx b.Match msg.Text = none) (hb' : rx b'.Match msg.Text = none) :
    callBacks rx (funcs₁ ++ b :: funcs₂) msg =
      callBacks rx funcs₁ msg ++ .logBadPattern b.Match :: callBacks rx funcs₂ msg ∧
    mesgChans rx (chans₁ ++ b' :: chans₂) msg =
      mesgChans rx chans₁ msg ++ .logBadPattern b'.Match :: mesgChans rx chans₂ msg := by
  constructor
  · induction funcs₁ with
    | nil => simp [callBacks, hb]
    | cons x rest ih =>
      rw [List.cons_append, callBacks]
      conv_rhs => rw [callBacks]
      cases rx x.Match msg.Text with
      | none => simpa using ih
      | some v => cases v with
        | true => simpa using ih
        | false => simpa using ih
  · induction chans₁ with
    | nil => simp [mesgChans, hb']
    | cons x rest ih =>
      rw [List.cons_append, mesgChans]
      conv_rhs => rw [mesgChans]
      cases rx x.Match msg.Text with
      | none => simpa using ih
      | some v => cases v with
        | true => simpa using ih
        | false => simpa using ih

/-- Witness for C7: a malformed pattern `"("` between two matching bindings is
logged and skipped while both neighbours still fire. -/
theorem dispatch_malformed_pattern_witness :
    (callBacks (fun p _ => if p = "(" then none else some true)
        [⟨".*", 1⟩, ⟨"(", 2⟩, ⟨"x", 3⟩] ⟨1, "a", "x", false⟩ =
      [.callFunc ".*" 1, .logBadPattern "(", .callFunc "x" 3]) ∧
    (mesgChans (fun p _ => if p = "(" then none else some true)
        [⟨"(", 9⟩, ⟨".*", 4⟩] ⟨1, "a", "x", false⟩ =
      [.logBadPattern "(", .chanSend ".*" 4]) := by
  have h := dispatch_malformed_pattern (fun p _ => if p = "(" then none else some true)
    ⟨1, "a", "x", false⟩ ⟨"(", 2⟩ ⟨"(", 9⟩ [⟨".*", 1⟩] [⟨"x", 3⟩] [] [⟨".*", 4⟩]
    (by decide) (by decide)
  have h1 := h.1
  have h2 := h.2
  simp only [List.singleton_append, List.nil_append] at h1 h2
  refine ⟨?_, ?_⟩
  · rw [h1]; decide
  · rw [h2]; decide

/-! ## Outgoing requests, `sendiMessage` and the Sender loop
(outgoing.go, lines 13-34, 86-128) -/

structure Outgoing where
  ID : String
  To : String
  Text : String
  File : Bool
  deriving Repr, DecidableEq

inductive ScriptVariant where
  | text
  | file
  deriving Repr, DecidableEq

structure SendResult where
  variant : ScriptVariant
  errs : List Int
  /-- the quirk sleep inside `sendiMessage` (`if !msg.File { time.Sleep(300ms) }`) -/
  innerSleep300 : Bool
  deriving Repr, DecidableEq

/-- Model of `sendiMessage` (outgoing.go, lines 112-128).  `statOk` models
`os.Stat(msg.Text) == nil` (the path exists); `ok` is the command outcome
oracle passed on to `RunAppleScript` with retry bound 3.  After a `nil`
error set, the 300 ms quirk sleep runs only when `!msg.File`. -/
def sendiMessage (ok : Int → Bool) (statOk : Bool) (msg : Outgoing) : SendResult :=
  let variant := if statOk ∧ msg.File then ScriptVariant.file else ScriptVariant.text
  let errs := (RunAppleScript ok 3).errs
  if errs ≠ [] then ⟨variant, errs, false⟩
  else if ¬ msg.File then ⟨variant, [], true⟩
  else ⟨variant, [], false⟩

/-- One `case msg := <-m.outChan` iteration of `processOutgoingMessages`
(outgoing.go, lines 91-98): run `sendiMessage`, then sleep 300 ms
unconditionally ("Give iMessage time to do its thing").  Returns the send
result and the total post-send delay in milliseconds. -/
def processOutgoingOne (ok : Int → Bool) (statOk : Bool) (msg : Outgoing) :
    SendResult × Nat :=
  let r := sendiMessage ok statOk msg
  (r, (if r.innerSleep300 then 300 else 0) + 300)

/-! ## C5: post-send delays -/

/-- C5 counterexample: after a successful file send the Sender still sleeps a
300 ms post-send delay (the unconditional sleep of the outgoing loop), so "no
such post-send delay occurs after a file send" is false. -/
theorem processOutgoingOne_file_delay_cex :
    (processOutgoingOne (fun _ => true) true ⟨"id", "to", "/tmp/f", true⟩).2 = 300 ∧
    (processOutgoingOne (fun _ => true) true ⟨"id", "to", "/tmp/f", true⟩).2 ≠ 0 := by
  constructor
  · rfl
  · decide

/-- C5 amended: the quirk 300 ms sleep inside `sendiMessage` runs exactly
after an error-free send with `File = false`; the outgoing loop adds an
unconditional 300 ms sleep after every processed request, so a successful
plain-text send incurs 600 ms of post-send delay and every other request
(file sends included) incurs 300 ms. -/
theorem processOutgoingOne_delay (ok : Int → Bool) (statOk : Bool) (msg : Outgoing) :
    ((sendiMessage ok statOk msg).innerSleep300 = true ↔
      ((RunAppleScript ok 3).errs = [] ∧ msg.File = false)) ∧
    (processOutgoingOne ok statOk msg).2 =
      (if (RunAppleScript ok 3).errs = [] ∧ msg.File = false then 600 else 300) := by
  have h1 : (sendiMessage ok statOk msg).innerSleep300 = true ↔
      ((RunAppleScript ok 3).errs = [] ∧ msg.File = false) := by
    unfold sendiMessage
    by_cases he : (RunAppleScript ok 3).errs = []
    · by_cases hf : msg.File
      · simp [he, hf]
      · simp [he, hf]
    · simp [he]
  refine ⟨h1, ?_⟩
  unfold processOutgoingOne
  by_cases hc : (RunAppleScript ok 3).errs = [] ∧ msg.File = false
  · have hs : (sendiMessage ok statOk msg).innerSleep300 = true := h1.mpr hc
    simp [hs, hc]
  · have hs : (sendiMessage ok statOk msg).innerSleep300 = false := by
      cases hb : (sendiMessage ok statOk msg).innerSleep300 with
      | false => rfl
      | true => exact absurd (h1.mp hb) hc
    simp [hs, hc]

/-! ## C4: the maintenance (clearing) branch of `processOutgoingMessages`
(outgoing.go, lines 86-110)

```
newMsg := true
clearTicker := time.NewTicker(2 * time.Minute).C
for {
    select {
    case msg := <-m.outChan: newMsg = true; ... send ...
    case <-clearTicker:
        if m.config.ClearMsgs && newMsg { newMsg = false; ... ClearMessages ... }
    case <-m.stopOutgoing: return
    }
}
```

A run of the loop is a sequence of select events (a message arrival or a
ticker tick); each event produces one observable action. -/

inductive LoopEvent where
  | msg
  | tick
  deriving Repr, DecidableEq

inductive LoopAct where
  | sent
  | cleared
  | idle
  deriving Repr, DecidableEq

/-- One `select` iteration: returns the new `newMsg` flag and the action. -/
def loopStep (clearMsgs newMsg : Bool) : LoopEvent → Bool × LoopAct
  | .msg => (true, .sent)
  | .tick => if clearMsgs ∧ newMsg then (false, .cleared) else (newMsg, .idle)

/-- The action trace of a run of the outgoing loop from flag state `newMsg`. -/
def loopRun (clearMsgs newMsg : Bool) : List LoopEvent → List LoopAct
  | [] => []
  | e :: es =>
    let p := loopStep clearMsgs newMsg e
    p.2 :: loopRun clearMsgs p.1 es

/-- The `newMsg` flag after a run. -/
def loopFlag (clearMsgs newMsg : Bool) : List LoopEvent → Bool
  | [] => newMsg
  | e :: es => loopFlag clearMsgs (loopStep clearMsgs newMsg e).1 es

/-- The loop `processOutgoingMessages` starts with `newMsg := true`. -/
def processOutgoingMessages (clearMsgs : Bool) (events : List LoopEvent) : List LoopAct :=
  loopRun clearMsgs true events

theorem loopRun_append (clearMsgs newMsg : Bool) :
    ∀ xs ys : List LoopEvent,
      loopRun clearMsgs newMsg (xs ++ ys) =
        loopRun clearMsgs newMsg xs ++ loopRun clearMsgs (loopFlag clearMsgs newMsg xs) ys := by
  intro xs
  induction xs generalizing newMsg with
  | nil => intro ys; rfl
  | cons e es ih =>
    intro ys
    simp only [List.cons_append, loopRun, loopFlag]
    exact congrArg _ (ih _ ys)

/-- With the option enabled, the flag is always false right after a tick. -/
theorem loopFlag_after_tick (newMsg : Bool) :
    loopFlag true newMsg [LoopEvent.tick] = false := by
  cases newMsg <;> rfl

/-- A run containing no message arrival never raises the flag. -/
theorem loopFlag_no_msg (clearMsgs : Bool) :
    ∀ es : List LoopEvent, (∀ e ∈ es, e ≠ LoopEvent.msg) →
      loopFlag clearMsgs false es = false := by
  intro es
  induction es with
  | nil => intro _; rfl
  | cons e rest ih =>
    intro h
    cases e with
    | msg => exact absurd rfl (h .msg (by simp))
    | tick =>
      simp only [loopFlag, loopStep]
      have : (if clearMsgs ∧ false then (false, LoopAct.cleared)
          else (false, LoopAct.idle)).1 = false := by
        simp
      rw [this]
      exact ih (fun e he => h e (by simp [he]))

/-- C4 counterexample: with clearing enabled, the very first tick after
startup invokes the clearing command even though no send ever completed
(`newMsg` is initialized to `true`), contradicting "a tick with zero sends
performs no external action (this includes the very first tick)". -/
theorem maintenance_first_tick_cex :
    processOutgoingMessages true [LoopEvent.tick] = [LoopAct.cleared] := by
  rfl

/-- C4 amended: the clearing command runs on a tick only when the option is
enabled and the `newMsg` flag is set; the flag starts `true`, so the first
enabled tick clears even with zero sends; with the option disabled no tick
ever clears, and any tick that follows an earlier tick with no send in
between performs no external action. -/
theorem maintenance_clear_policy (clearMsgs : Bool) (es es₁ es₂ : List LoopEvent) :
    LoopAct.cleared ∉ processOutgoingMessages false es ∧
    ((∀ e ∈ es₂, e ≠ LoopEvent.msg) →
      (processOutgoingMessages clearMsgs
          (es₁ ++ LoopEvent.tick :: (es₂ ++ [LoopEvent.tick]))).getLast? =
        some LoopAct.idle) := by
  constructor
  · unfold processOutgoingMessages
    generalize (true : Bool) = f
    induction es generalizing f with
    | nil => simp [loopRun]
    | cons e rest ih =>
      cases e with
      | msg =>
        simp only [loopRun, loopStep, List.mem_cons]
        rintro (h | h)
        · exact LoopAct.noConfusion h
        · exact ih _ h
      | tick =>
        simp only [loopRun, loopStep, false_and, if_false, List.mem_cons]
        rintro (h | h)
        · exact LoopAct.noConfusion h
        · exact ih _ h
  · intro hnomsg
    unfold processOutgoingMessages
    have hsplit : es₁ ++ LoopEvent.tick :: (es₂ ++ [LoopEvent.tick]) =
        (es₁ ++ LoopEvent.tick :: es₂) ++ [LoopEvent.tick] := by
      simp
    rw [hsplit, loopRun_append]
    set f := loopFlag clearMsgs true (es₁ ++ LoopEvent.tick :: es₂) with hf
    have hfin : loopRun clearMsgs f [LoopEvent.tick] = [LoopAct.idle] := by
      cases hc : clearMsgs with
      | false => cases f <;> rfl
      | true =>
        have hffalse : f = false := by
          rw [hf]
          have h1 : es₁ ++ LoopEvent.tick :: es₂ = (es₁ ++ [LoopEvent.tick]) ++ es₂ := by
            simp
          rw [h1]
          have h2 : ∀ g : Bool, ∀ xs ys : List LoopEvent,
              loopFlag true g (xs ++ ys) = loopFlag true (loopFlag true g xs) ys := by
            intro g xs
            induction xs generalizing g with
            | nil => intro ys; rfl
            | cons e rest ih =>
              intro ys
              simp only [List.cons_append, loopFlag]
              exact ih _ ys
          rw [hc] at *
          rw [h2]
          have h3 : loopFlag true true (es₁ ++ [LoopEvent.tick]) = false := by
            rw [h2]
            exact loopFlag_after_tick _
          rw [h3]
          exact loopFlag_no_msg true es₂ hnomsg
        rw [hffalse]
        rfl
    rw [hfin]
    exact List.getLast?_concat _

/-- Witness for C4's amended theorem on a concrete trace: with clearing
enabled, a send then a tick clears, and the next tick (zero sends since the
prior tick) does nothing. -/
theorem maintenance_clear_policy_witness :
    LoopAct.cleared ∉ processOutgoingMessages false [LoopEvent.msg, LoopEvent.tick] ∧
    (processOutgoingMessages true
        [LoopEvent.msg, LoopEvent.tick, LoopEvent.tick]).getLast? = some LoopAct.idle := by
  have h := maintenance_clear_policy false [LoopEvent.msg, LoopEvent.tick]
    [LoopEvent.msg] []
  have h' := maintenance_clear_policy true [] [LoopEvent.msg] []
  refine ⟨h.1, ?_⟩
  have := h'.2 (by intro e he; simp at he)
  simpa using this

/-! ## The external message store (incoming.go, lines 163-213)

A row of the store as the ingestion query sees it: the joined
`{rowid, handle, text, cache_has_attachments}` of one received message (the
`is_from_me=0` filter and the handle join are part of the query shape, so the
modelled store holds exactly the rows that shape yields, in the
`message.date` order the query imposes). -/

structure MessageRow where
  rowid : Int
  handle : String
  text : String
  cache_has_attachments : Int
  deriving Repr, DecidableEq

/-- One `Step` of `SELECT MAX(rowid) AS id FROM message` followed by
`GetInt64("id")`: a SQL aggregate without GROUP BY always produces exactly
one result row, whose `MAX` value is NULL on an empty table; sqlite's
`GetInt64` reads NULL as 0.  Returns `(hasrow, value)`. -/
def maxQueryStep (store : List MessageRow) : Bool × Int :=
  (true, ((store.map (fun r => r.rowid)).max?).getD 0)

/-- Model of `getCurrentID` (incoming.go, lines 195-213): one `Step` of the MAX query;
if it yields a row (and no query fault occurred) the cursor becomes the read
value, otherwise the function returns the error `"no message rows found"`.
No retry is performed. -/
def getCurrentID (store : List MessageRow) : Except String Int :=
  let step := maxQueryStep store
  if step.1 then Except.ok step.2
  else Except.error "no message rows found"

/-! ## C8: `getCurrentID` on an empty store -/

/-- C8 (code bug): on an empty store the MAX aggregate still yields one row
(with NULL, read as 0), so `getCurrentID` returns success with cursor 0
instead of the "no rows" error branch — that branch is unreachable for
emptiness.  On a non-empty store it does return the maximum identifier. -/
theorem getCurrentID_empty_store :
    getCurrentID [] = Except.ok 0 ∧
    (∀ store : List MessageRow, getCurrentID store =
      Except.ok (((store.map (fun r => r.rowid)).max?).getD 0)) ∧
    (∀ store : List MessageRow, getCurrentID store ≠ Except.error "no message rows found") := by
  refine ⟨rfl, fun store => rfl, fun store h => ?_⟩
  exact Except.noConfusion h

/-! ## C9: the fallback poller's ticker period (incoming.go, lines 151-161)

`time.NewTicker(m.Interval.Round(time.Second))`.  Durations are `int64`
nanoseconds; `Duration.Round` is Go's round-to-nearest-multiple,
half away from zero, saturating at the `int64` bounds exactly where the Go
implementation's overflow checks fire; Go's `%` is truncated division
(`Int.tmod`).  `time.NewTicker` panics when the period is `<= 0`. -/

def nsPerSecond : Int := 1000000000

def minDuration : Int := -9223372036854775808

def maxDuration : Int := 9223372036854775807

/-- Go's `Duration.Round(m)` (src/time/time.go), for `d` within `int64`. -/
def durationRound (d m : Int) : Int :=
  if m ≤ 0 then d
  else
    let r := d.tmod m
    if d < 0 then
      let r' := -r
      if r' + r' < m then d + r'
      else if d - m + r' < minDuration then minDuration
      else d - m + r'
    else
      if r + r < m then d - r
      else if maxDuration < d + m - r then maxDuration
      else d + m - r

/-- Construction `time.NewTicker` panics on a non-positive period. -/
def NewTicker (d : Int) : Except String Int :=
  if d ≤ 0 then Except.error "non-positive interval for NewTicker"
  else Except.ok d

/-- The ticker construction of `pollSQL` (incoming.go, line 152). -/
def pollSQLTicker (interval : Int) : Except String Int :=
  NewTicker (durationRound interval nsPerSecond)

/-- Truncated remainder `tmod` is odd in its first argument. -/
theorem tmod_neg_left (a b : Int) : (-a).tmod b = -(a.tmod b) := by
  cases a with
  | ofNat n => cases n with
    | zero => simp
    | succ k =>
      rw [show -(Int.ofNat (k + 1)) = Int.negSucc k from rfl]
      cases b with
      | ofNat m => rfl
      | negSucc m => rfl
  | negSucc k =>
    rw [show -(Int.negSucc k) = Int.ofNat (k + 1) from rfl]
    cases b with
    | ofNat m => simp [Int.tmod]
    | negSucc m => simp [Int.tmod]

/-- For `d < 0 < m`, Go's truncated `%` is minus the euclidean remainder of
`-d`. -/
theorem tmod_of_neg (d m : Int) (hd : d < 0) (hm : 0 < m) :
    d.tmod m = -((-d) % m) := by
  have h1 : d.tmod m = -((-d).tmod m) := by
    rw [show d = -(-d) from by ring, tmod_neg_left]
    ring_nf
  rw [h1, Int.tmod_eq_emod (by omega) (by omega)]

/-- C9 counterexample: the configured interval -2 s is below 500 ms, yet
rounding it to whole seconds yields -2 s, not zero (the ticker construction
still faults, but not because the rounding yielded zero). -/
theorem pollSQL_round_cex :
    durationRound (-2000000000) nsPerSecond = -2000000000 ∧
    (-2000000000 : Int) < 500000000 ∧
    durationRound (-2000000000) nsPerSecond ≠ 0 ∧
    pollSQLTicker (-2000000000) = Except.error "non-positive interval for NewTicker" := by
  refine ⟨by decide, by decide, by decide, ?_⟩
  have h : durationRound (-2000000000) nsPerSecond = -2000000000 := by decide
  unfold pollSQLTicker
  rw [h]
  rfl

/-- C9 amended: the fallback poller's period is the configured interval
rounded to whole seconds; rounding yields zero exactly for nonnegative
intervals below 500 ms, and the ticker construction faults exactly when the
interval is below 500 ms (the rounded period is then `≤ 0`), so `pollSQL` is
total iff the interval is at least 500 ms. -/
theorem pollSQL_total_iff (d : Int) :
    ((pollSQLTicker d).isOk = true ↔ 500000000 ≤ d) ∧
    (0 ≤ d → d < 500000000 → durationRound d nsPerSecond = 0) := by
  have hm : (0 : Int) < nsPerSecond := by decide
  have hround : (500000000 ≤ d → 0 < durationRound d nsPerSecond) ∧
      (d < 500000000 → durationRound d nsPerSecond ≤ 0) ∧
      (0 ≤ d → d < 500000000 → durationRound d nsPerSecond = 0) := by
    unfold durationRound nsPerSecond
    rcases lt_or_le d 0 with hd | hd
    · rw [if_neg (by decide : ¬ (1000000000 : Int) ≤ 0), if_pos hd]
      rw [tmod_of_neg d 1000000000 hd (by decide)]
      have hr1 : 0 ≤ (-d) % 1000000000 := Int.emod_nonneg _ (by decide)
      have hr2 : (-d) % 1000000000 < 1000000000 := Int.emod_lt_of_pos _ (by decide)
      have hkey : -d - (-d) % 1000000000 = 1000000000 * ((-d) / 1000000000) := by
        have := Int.ediv_add_emod (-d) 1000000000
        omega
      have hdiv : 0 ≤ (-d) / 1000000000 := Int.ediv_nonneg (by omega) (by decide)
      constructor
      · intro h; omega
      constructor
      · intro _
        simp only [neg_neg]
        split_ifs <;> [omega; skip; omega] <;> unfold minDuration <;> omega
      · intro h; omega
    · rw [if_neg (by decide : ¬ (1000000000 : Int) ≤ 0), if_neg (by omega : ¬ d < 0)]
      rw [Int.tmod_eq_emod hd (by decide)]
      have hr1 : 0 ≤ d % 1000000000 := Int.emod_nonneg _ (by decide)
      have hr2 : d % 1000000000 < 1000000000 := Int.emod_lt_of_pos _ (by decide)
      have hkey : d - d % 1000000000 = 1000000000 * (d / 1000000000) := by
        have := Int.ediv_add_emod d 1000000000
        omega
      have hdiv : 0 ≤ d / 1000000000 := Int.ediv_nonneg hd (by decide)
      have hdivpos : 500000000 ≤ d → d % 1000000000 + d % 1000000000 < 1000000000 →
          1 ≤ d / 1000000000 := by
        intro h hsmall
        by_contra hlt
        have : d / 1000000000 = 0 := by omega
        omega
      constructor
      · intro h
        split_ifs with h1 h2
        · have := hdivpos h h1
          omega
        · unfold maxDuration; omega
        · omega
      constructor
      · intro h
        have hd0 : d / 1000000000 = 0 := by
          by_contra hne
          have h1 : 1 ≤ d / 1000000000 := by omega
          omega
        split_ifs with h1 h2
        · omega
        · unfold maxDuration at h2; omega
        · omega
      · intro _ h
        have hd0 : d / 1000000000 = 0 := by
          by_contra hne
          have h1 : 1 ≤ d / 1000000000 := by omega
          omega
        have hsmall : d % 1000000000 + d % 1000000000 < 1000000000 := by omega
        rw [if_pos hsmall]
        omega
  constructor
  · unfold pollSQLTicker NewTicker
    constructor
    · intro h
      by_contra hlt
      have h2 := hround.2.1 (by omega)
      rw [if_pos h2] at h
      exact Bool.noConfusion h
    · intro h
      have h1 := hround.1 h
      rw [if_neg (by omega)]
      rfl
  · exact hround.2.2

/-- Witness for C9's amended theorem at 500 ms (ok, rounds up to 1 s), at
499999999 ns (rounds to zero, ticker construction faults) and at 1 ns. -/
theorem pollSQL_total_iff_witness :
    (pollSQLTicker 500000000).isOk = true ∧
    durationRound 499999999 nsPerSecond = 0 ∧
    (pollSQLTicker 499999999).isOk = false ∧
    (pollSQLTicker 1).isOk = false := by
  refine ⟨(pollSQL_total_iff 500000000).1.mpr (by decide), ?_, ?_, ?_⟩
  · exact (pollSQL_total_iff 499999999).2 (by decide) (by decide)
  · have h := (pollSQL_total_iff 499999999).1
    cases hb : (pollSQLTicker 499999999).isOk with
    | false => rfl
    | true => exact absurd (h.mp hb) (by decide)
  · have h := (pollSQL_total_iff 1).1
    cases hb : (pollSQLTicker 1).isOk with
    | false => rfl
    | true => exact absurd (h.mp hb) (by decide)

/-! ## `checkForNewMessages` (incoming.go, lines 163-193)

The check cycle runs

```
WHERE is_from_me=0 AND message.rowid > $id ORDER BY message.date ASC
```

with `$id` bound once to `m.currentID`, then steps through the result rows:
for each row it sets `m.currentID` to the row's `rowid`, builds an `Incoming`
(trimming sender and text, reading the attachment flag) and sends it on
`m.inChan`.  The store is the list of rows in the query's temporal order;
the range condition becomes a `filter` over it. -/

/-- Building an `Incoming` from a row (incoming.go, lines 181-189). -/
def toIncoming (r : MessageRow) : Incoming :=
  { RowID := r.rowid
    From := r.handle.trim
    Text := r.text.trim
    File := r.cache_has_attachments == 1 }

/-- The row loop of `checkForNewMessages`: returns the final cursor and the
events sent on `inChan`, in order.  The cursor is set to each row's id as the
row is read. -/
def checkLoop : List MessageRow → Int → Int × List Incoming
  | [], currentID => (currentID, [])
  | r :: rest, _ =>
    let tail := checkLoop rest r.rowid
    (tail.1, toIncoming r :: tail.2)

/-- One check cycle: query rows past the cursor (in store order), drain them. -/
def checkForNewMessages (currentID : Int) (store : List MessageRow) :
    Int × List Incoming :=
  checkLoop (store.filter fun r => currentID < r.rowid) currentID

/-- A sequence of check cycles against successive snapshots of the growing
store, threading the cursor and concatenating the emitted events. -/
def runCycles (currentID : Int) : List (List MessageRow) → Int × List Incoming
  | [] => (currentID, [])
  | store :: rest =>
    let fst := checkForNewMessages currentID store
    let more := runCycles fst.1 rest
    (more.1, fst.2 ++ more.2)

/-! ### folds over row identifiers -/

theorem le_foldlMax (l : List Int) : ∀ c : Int, c ≤ List.foldl max c l := by
  induction l with
  | nil => intro c; simp
  | cons x xs ih =>
    intro c
    rw [List.foldl_cons]
    exact le_trans (le_max_left c x) (ih (max c x))

theorem foldlMax_mem_le {y : Int} (l : List Int) : ∀ c : Int, y ∈ l →
    y ≤ List.foldl max c l := by
  induction l with
  | nil => intro c h; simp at h
  | cons x xs ih =>
    intro c h
    rw [List.foldl_cons]
    rcases List.mem_cons.mp h with h | h
    · subst h
      exact le_trans (le_max_right c y) (le_foldlMax xs _)
    · exact ih _ h

theorem foldlMax_lt {x : Int} (l : List Int) : ∀ c : Int, c < x →
    (∀ y ∈ l, y < x) → List.foldl max c l < x := by
  induction l with
  | nil => intro c hc _; simpa using hc
  | cons z zs ih =>
    intro c hc hall
    rw [List.foldl_cons]
    exact ih _ (max_lt hc (hall z (by simp))) (fun y hy => hall y (by simp [hy]))

/-- On a batch of rows that all lie past the cursor and carry strictly
increasing identifiers, the row loop emits one event per row in order and
leaves the cursor at the running maximum identifier. -/
theorem checkLoop_run : ∀ (rows : List MessageRow) (c : Int),
    (∀ r ∈ rows, c < r.rowid) →
    rows.Pairwise (fun a b => a.rowid < b.rowid) →
    checkLoop rows c =
      (List.foldl max c (rows.map fun r => r.rowid), rows.map toIncoming) := by
  intro rows
  induction rows with
  | nil => intro c _ _; rfl
  | cons r rest ih =>
    intro c hmem hs
    have hr : c < r.rowid := hmem r (by simp)
    have hmem' : ∀ x ∈ rest, r.rowid < x.rowid := (List.pairwise_cons.mp hs).1
    have hs' : rest.Pairwise (fun a b => a.rowid < b.rowid) :=
      (List.pairwise_cons.mp hs).2
    rw [checkLoop]
    rw [ih r.rowid hmem' hs']
    simp only [List.map_cons, List.foldl_cons]
    rw [max_eq_right (le_of_lt hr)]

/-- One check cycle over a store with strictly increasing identifiers. -/
theorem checkForNewMessages_sorted (c : Int) (S : List MessageRow)
    (hs : S.Pairwise (fun a b => a.rowid < b.rowid)) :
    checkForNewMessages c S =
      (List.foldl max c ((S.filter fun r => c < r.rowid).map fun r => r.rowid),
       (S.filter fun r => c < r.rowid).map toIncoming) := by
  unfold checkForNewMessages
  apply checkLoop_run
  · intro r hr
    have h := (List.mem_filter.mp hr).2
    simpa using h
  · exact hs.sublist (List.filter_sublist S)

/-- Each entry of a prefix-chain of store snapshots is a prefix of the final
snapshot. -/
theorem chain_prefix_getLastD {α : Type} : ∀ (l : List (List α)),
    List.Chain' (· <+: ·) l → ∀ a ∈ l, a <+: l.getLastD [] := by
  intro l
  induction l with
  | nil => intro _ a ha; simp at ha
  | cons x rest ih =>
    intro hchain a ha
    cases rest with
    | nil =>
      rcases List.mem_singleton.mp ha with rfl
      exact List.prefix_refl _
    | cons y ys =>
      have h1 : x <+: y ∧ List.Chain' (· <+: ·) (y :: ys) := List.chain'_cons.mp hchain
      have hlast : (x :: y :: ys).getLastD [] = (y :: ys).getLastD [] := by
        simp [List.getLastD_eq_getLast?, List.getLast?]
      rw [hlast]
      rcases List.mem_cons.mp ha with rfl | ha'
      · exact h1.1.trans (ih h1.2 y (by simp))
      · exact ih h1.2 a ha'

/-- Cursor-threading across cycles on a prefix-chain of snapshots: the run
behaves like a single cycle over the final snapshot. -/
theorem runCycles_spec : ∀ (stores : List (List MessageRow)) (c : Int),
    List.Chain' (· <+: ·) stores →
    (stores.getLastD []).Pairwise (fun a b => a.rowid < b.rowid) →
    runCycles c stores =
      (List.foldl max c
        (((stores.getLastD []).filter fun r => c < r.rowid).map fun r => r.rowid),
       ((stores.getLastD []).filter fun r => c < r.rowid).map toIncoming) := by
  intro stores
  induction stores with
  | nil => intro c _ _; rfl
  | cons S rest ih =>
    intro c hchain hsorted
    cases rest with
    | nil =>
      have hS : ([S].getLastD []) = S := rfl
      rw [hS] at hsorted
      show runCycles c [S] = _
      rw [runCycles, runCycles]
      rw [checkForNewMessages_sorted c S hsorted]
      simp
    | cons S₂ rest₂ =>
      have h1 : S <+: S₂ ∧ List.Chain' (· <+: ·) (S₂ :: rest₂) :=
        List.chain'_cons.mp hchain
      have hlast : ((S :: S₂ :: rest₂).getLastD []) = ((S₂ :: rest₂).getLastD []) := by
        simp [List.getLastD_eq_getLast?, List.getLast?]
      rw [hlast]
      set L := (S₂ :: rest₂).getLastD [] with hL
      rw [hlast] at hsorted
      have hSL : S <+: L := by
        have := chain_prefix_getLastD (S :: S₂ :: rest₂) hchain S (by simp)
        rwa [hlast] at this
      obtain ⟨T, hT⟩ := hSL
      have hSsorted : S.Pairwise (fun a b => a.rowid < b.rowid) := by
        refine hsorted.sublist ?_
        rw [← hT]
        exact List.sublist_append_left S T
      have hST : ∀ s ∈ S, ∀ t ∈ T, s.rowid < t.rowid := by
        have := (List.pairwise_append.mp (by rwa [← hT] at hsorted)).2.2
        exact this
      rw [runCycles]
      rw [checkForNewMessages_sorted c S hSsorted]
      set c₁ := List.foldl max c ((S.filter fun r => c < r.rowid).map fun r => r.rowid)
        with hc₁
      rw [ih c₁ h1.2 hsorted]
      have hcc₁ : c ≤ c₁ := le_foldlMax _ _
      -- rows of T pass the new cursor iff they pass the old one
      have hTsame : ∀ t ∈ T, (decide (c₁ < t.rowid)) = (decide (c < t.rowid)) := by
        intro t ht
        by_cases hct : c < t.rowid
        · have h2 : c₁ < t.rowid := by
            rw [hc₁]
            apply foldlMax_lt _ _ hct
            intro y hy
            obtain ⟨s, hsmem, rfl⟩ := List.mem_map.mp hy
            exact hST s (List.mem_of_mem_filter hsmem) t ht
          simp [hct, h2]
        · have h2 : ¬ c₁ < t.rowid := fun h => hct (lt_of_le_of_lt hcc₁ h)
          simp [hct, h2]
      -- no row of S passes the new cursor
      have hSnone : S.filter (fun r => c₁ < r.rowid) = [] := by
        rw [List.filter_eq_nil]
        intro s hsmem
        by_cases hcs : c < s.rowid
        · have : s.rowid ≤ c₁ := by
            rw [hc₁]
            apply foldlMax_mem_le
            exact List.mem_map.mpr ⟨s, List.mem_filter.mpr ⟨hsmem, by simpa using hcs⟩, rfl⟩
          simp
          omega
        · simp
          omega
      have hfilters : L.filter (fun r => c₁ < r.rowid) = T.filter (fun r => c < r.rowid) := by
        rw [← hT, List.filter_append, hSnone, List.nil_append]
        exact List.filter_congr hTsame
      have hfilterL : L.filter (fun r => c < r.rowid) =
          S.filter (fun r => c < r.rowid) ++ T.filter (fun r => c < r.rowid) := by
        rw [← hT, List.filter_append]
      rw [hfilters, hfilterL]
      simp only [List.map_append, List.foldl_append]

/-! ## C1: exactly-once, in-order ingestion with a monotone cursor -/

/-- C1: over any prefix-chain of snapshots of a store whose rows carry
strictly increasing identifiers, the check cycles emit exactly one
`Incoming` per row past the initial cursor, in store order, each exactly
once (the concatenated emissions are the `map` of the `filter` of the final
snapshot); the final cursor is the maximum identifier seen (the initial
cursor if nothing was read), never below the initial cursor; and within any
single cycle the cursor is advanced to each row's identifier as it is read,
taking a non-decreasing sequence of values. -/
theorem checkCycles_exactly_once (cur : Int) (stores : List (List MessageRow))
    (hchain : List.Chain' (· <+: ·) stores)
    (hsorted : (stores.getLastD []).Pairwise (fun a b => a.rowid < b.rowid)) :
    (runCycles cur stores).2 =
      ((stores.getLastD []).filter fun r => cur < r.rowid).map toIncoming ∧
    (runCycles cur stores).1 =
      List.foldl max cur
        (((stores.getLastD []).filter fun r => cur < r.rowid).map fun r => r.rowid) ∧
    cur ≤ (runCycles cur stores).1 ∧
    (∀ (c : Int) (S : List MessageRow),
      S.Pairwise (fun a b => a.rowid < b.rowid) →
      (checkForNewMessages c S).2.map (fun e => e.RowID) =
        (S.filter fun r => c < r.rowid).map (fun r => r.rowid) ∧
      List.Chain' (· ≤ ·)
        (c :: ((S.filter fun r => c < r.rowid).map fun r => r.rowid))) := by
  have hrun := runCycles_spec stores cur hchain hsorted
  refine ⟨by rw [hrun], by rw [hrun], ?_, ?_⟩
  · rw [hrun]
    exact le_foldlMax _ _
  · intro c S hs
    constructor
    · rw [checkForNewMessages_sorted c S hs]
      simp [toIncoming, List.map_map, Function.comp]
    · have hpw : (c :: ((S.filter fun r => c < r.rowid).map fun r => r.rowid)).Pairwise
          (· ≤ ·) := by
        rw [List.pairwise_cons]
        constructor
        · intro y hy
          obtain ⟨s, hsmem, rfl⟩ := List.mem_map.mp hy
          have := (List.mem_filter.mp hsmem).2
          simp at this
          omega
        · refine List.Pairwise.map _ ?_ (hs.sublist (List.filter_sublist S))
          intro a b hab
          exact le_of_lt hab
      exact hpw.chain'

/-- Witness for C1 on a concrete growing store: snapshot `[5]` then `[5, 9]`
(rowids), cursor starting at 4: both rows are emitted exactly once, in order,
and the cursor ends at 9. -/
theorem checkCycles_exactly_once_witness :
    (runCycles 4 [[⟨5, "a", "hi", 0⟩], [⟨5, "a", "hi", 0⟩, ⟨9, "b", "yo", 1⟩]]).2.map
        (fun e => e.RowID) = [5, 9] ∧
    (runCycles 4 [[⟨5, "a", "hi", 0⟩], [⟨5, "a", "hi", 0⟩, ⟨9, "b", "yo", 1⟩]]).1 = 9 := by
  have h := checkCycles_exactly_once 4
    [[⟨5, "a", "hi", 0⟩], [⟨5, "a", "hi", 0⟩, ⟨9, "b", "yo", 1⟩]]
    (by
      refine List.chain'_cons.mpr ⟨⟨[⟨9, "b", "yo", 1⟩], rfl⟩, ?_⟩
      exact List.chain'_singleton _)
    (by
      refine List.pairwise_cons.mpr ⟨?_, ?_⟩
      · intro b hb
        rcases List.mem_singleton.mp hb with rfl
        decide
      · exact List.pairwise_singleton _ _)
  constructor
  · rw [h.1, List.map_map]
    show List.map (fun r : MessageRow => r.rowid) _ = _
    decide
  · rw [h.2.1]; decide

end IMessage
